import Mathlib

/-!
Verification of the n-hats brute-force verifier (`hats.go`).

The program encodes a hat color as an `Int` in `0..n-1`, a guess as a
function from the vector of everyone's colors (with the guesser's own
position pruned to the sentinel `-1`) to a guessed color, and a strategy
as a list of guesses, one per participant.  `try` enumerates all `n^n`
assignments with an odometer counter and checks each with `checkRow`.

Go's `%` on `int` is truncated-division remainder, which is `Int.tmod`.
Go's `for` loop in `try` is embedded with explicit fuel `n ^ n`, which is
proved below to bound the number of iterations of the loop body.
-/

namespace Hats

/-- Go type `guess`: a guess function for one participant. -/
abbrev Guess := List Int → Int

/-- Default used by `List.getD` on strategies; never reached when the
strategy has length `n`, mirroring Go where an out-of-range index panics. -/
def defaultGuess : Guess := fun _ => 0

/-- Go `prune(v, i, n)`: allocate a fresh length-`n` slice, copy `v` into it
(`copy` pads with zeroes past `v`'s length), and clear position `i` to the
sentinel `-1`. -/
def prune (v : List Int) (i n : Nat) : List Int :=
  ((List.range n).map (fun j => v.getD j 0)).set i (-1)

/-- Go `checkRow(actual, strategy, n)`: true iff some participant `i < n`
guesses its own color from the pruned view. -/
def checkRow (actual : List Int) (strategy : List Guess) (n : Nat) : Bool :=
  (List.range n).any (fun i =>
    actual.getD i 0 == (strategy.getD i defaultGuess) (prune actual i n))

/-- The data printed by Go `printRow(actual, strategy, n)`: the true colors
`actual[0..n)`, then each participant's guess — note the source applies
`strategy[i]` to the raw `actual`, not to the pruned view. -/
def printRowData (actual : List Int) (strategy : List Guess) (n : Nat) :
    List Int × List Int :=
  ((List.range n).map (fun i => actual.getD i 0),
   (List.range n).map (fun i => (strategy.getD i defaultGuess) actual))

/-- The loop body of Go's `next` closure inside `try`, acting on the counter
listed least-significant position first (the Go loop walks `i = n-1 … 0`).
Each visited digit is replaced by `(digit+1) % n`; the walk stops at the
first digit that did not wrap to `0`.  Returns the new digits and whether
more values exist. -/
def nextAux (n : Nat) : List Int → List Int × Bool
  | [] => ([], false)
  | x :: xs =>
    if 0 < (x + 1).tmod (n : Int) then ((x + 1).tmod (n : Int) :: xs, true)
    else ((x + 1).tmod (n : Int) :: (nextAux n xs).1, (nextAux n xs).2)

/-- Go's `next` closure: advance the odometer `cur` (most-significant
position first, as in the source) and report whether more values exist. -/
def next (n : Nat) (cur : List Int) : List Int × Bool :=
  ((nextAux n cur.reverse).1.reverse, (nextAux n cur.reverse).2)

/-- The do-while loop of Go `try`, with explicit fuel.  The default `true`
at fuel `0` is dead code: `n ^ n` fuel suffices, as proved below. -/
def tryGo (strategy : List Guess) (n : Nat) : Nat → List Int → Bool
  | 0, _ => true
  | fuel + 1, cur =>
    if checkRow cur strategy n then
      if (next n cur).2 then tryGo strategy n fuel (next n cur).1 else true
    else false

/-- Go `try(strategy, n)`: enumerate all assignments starting from the
all-zero one and check each row; false on the first failing row. -/
def «try» (strategy : List Guess) (n : Nat) : Bool :=
  tryGo strategy n (n ^ n) (List.replicate n 0)

/-- Companion to `tryGo` returning the assignment handed to `printRow`
when a row fails (`none` when the loop succeeds). -/
def tryGoFail (strategy : List Guess) (n : Nat) : Nat → List Int → Option (List Int)
  | 0, _ => none
  | fuel + 1, cur =>
    if checkRow cur strategy n then
      if (next n cur).2 then tryGoFail strategy n fuel (next n cur).1 else none
    else some cur

/-- The assignment Go `try` reports via `printRow` on failure, if any. -/
def tryFail (strategy : List Guess) (n : Nat) : Option (List Int) :=
  tryGoFail strategy n (n ^ n) (List.replicate n 0)

/-- Instrumented enumeration: the sequence of counter states visited by the
loop of `try` on a run where no check fails. -/
def enumTrace (n : Nat) : Nat → List Int → List (List Int)
  | 0, _ => []
  | fuel + 1, cur =>
    cur :: (if (next n cur).2 then enumTrace n fuel (next n cur).1 else [])

/-- Go `mod(x, n)`: positive modulus `((x % n) + n) % n` with Go's
truncated `%`. -/
def mod (x n : Int) : Int := ((x.tmod n) + n).tmod n

/-- Go `generateStrategy(n)`:
`g_0(v) = mod(v[1] + … + v[n-1], n)` and for `1 ≤ i < n`
`g_i(v) = mod(v[0] - Σ_{j ∈ 1..n-1, j ≠ i} v[j] + i, n)`, each inner
closure capturing its own copy of `i` (the source rebinds `i := i`). -/
def generateStrategy (n : Nat) : List Guess :=
  (fun v => mod ((List.range' 1 (n - 1)).foldl (fun res i => res + v.getD i 0) 0) n)
  :: (List.range' 1 (n - 1)).map (fun i => fun v =>
       mod ((List.range' 1 (n - 1)).foldl
              (fun res j => if j = i then res else res - v.getD j 0)
              (v.getD 0 0) + (i : Int)) n)

/-- The deliberately broken strategy of the negative scenario: every guess
function returns the constant `0`. -/
def constZeroStrategy (n : Nat) : List Guess := List.replicate n (fun _ => 0)

/-- Little-endian base-`n` digits of `k`, `len` of them, as `Int`s. -/
def digitsLE (n : Nat) : Nat → Nat → List Int
  | 0, _ => []
  | len + 1, k => ((k % n : Nat) : Int) :: digitsLE n len (k / n)

/-- Big-endian (most-significant first) base-`n` digits of `k`, `len` of
them: the `k`-th counter state of the odometer in `try`. -/
def digitsBE (n len k : Nat) : List Int := (digitsLE n len k).reverse

/-- Value of a little-endian digit list in base `n`. -/
def valLE (n : Nat) : List Int → Nat
  | [] => 0
  | x :: xs => x.toNat + n * valLE n xs

/-- Value of a big-endian digit list in base `n`. -/
def valBE (n : Nat) (a : List Int) : Nat := valLE n a.reverse

/-- The sum `a[1] + … + a[n-1]` read by the generated guess functions. -/
def prunedSum (a : List Int) (n : Nat) : Int :=
  ((List.range' 1 (n - 1)).map (fun j => a.getD j 0)).sum

/-- A strategy whose only guess returns the guesser's own position `v[0]`;
it separates the raw assignment from its pruned view. -/
def selfReadStrategy : List Guess := [fun v => v.getD 0 0]

/-! ### The positive modulus `mod` -/

lemma neg_lt_tmod {x n : Int} (hn : 0 < n) : -n < x.tmod n := by
  rcases x with m | m
  · have h0 : (0 : Int) ≤ (Int.ofNat m).tmod n := Int.tmod_nonneg n (Int.ofNat_nonneg m)
    omega
  · obtain ⟨k, rfl⟩ := Int.eq_ofNat_of_zero_le hn.le
    have hk : 0 < k := by exact_mod_cast hn
    have he : (Int.negSucc m).tmod (k : Int) = -(((m + 1) % k : Nat) : Int) := rfl
    have hlt : (m + 1) % k < k := Nat.mod_lt _ hk
    rw [he]
    omega

lemma tmod_emod (x : Int) (n : Int) : x.tmod n % n = x % n := by
  rw [Int.tmod_def]
  have h : x - n * x.tdiv n = x + n * (-x.tdiv n) := by ring
  rw [h, Int.add_mul_emod_self_left]

/-- For a positive modulus, Go's `mod` is exactly Euclidean `%` on `ℤ`. -/
lemma mod_eq_emod (x : Int) {n : Int} (hn : 0 < n) : mod x n = x % n := by
  have h1 : -n < x.tmod n := neg_lt_tmod hn
  have h2 : (0 : Int) ≤ x.tmod n + n := by omega
  unfold mod
  rw [Int.tmod_eq_emod h2 hn.le, Int.add_emod_self, tmod_emod]

/-- The positive modulus lands in `[0, n)` for `n > 0`. -/
lemma mod_bounds (x : Int) {n : Int} (hn : 0 < n) : 0 ≤ mod x n ∧ mod x n < n := by
  rw [mod_eq_emod x hn]
  exact ⟨Int.emod_nonneg x (by omega), Int.emod_lt_of_pos x hn⟩

/-- **C5.** For every integer `x` and every integer `n > 0`, `mod(x, n)`
returns a value in `[0, n)`, and `mod(x, n) = mod(x + n, n)`. -/
theorem mod_nonneg_lt_period (x n : Int) (hn : 0 < n) :
    0 ≤ mod x n ∧ mod x n < n ∧ mod x n = mod (x + n) n := by
  rw [mod_eq_emod x hn, mod_eq_emod (x + n) hn, Int.add_emod_self]
  exact ⟨Int.emod_nonneg x (by omega), Int.emod_lt_of_pos x hn, rfl⟩

/-- Witness for C5 at `x = -5`, `n = 3`. -/
theorem mod_nonneg_lt_period_witness :
    0 ≤ mod (-5) 3 ∧ mod (-5) 3 < 3 ∧ mod (-5) 3 = mod (-5 + 3) 3 :=
  mod_nonneg_lt_period (-5) 3 (by decide)

/-! ### Base-`n` digit lists and the odometer -/

lemma digitsLE_length (n len k : Nat) : (digitsLE n len k).length = len := by
  induction len generalizing k with
  | zero => rfl
  | succ len ih => simp [digitsLE, ih]

lemma digitsBE_length (n len k : Nat) : (digitsBE n len k).length = len := by
  simp [digitsBE, digitsLE_length]

lemma digitsLE_zero (n len : Nat) : digitsLE n len 0 = List.replicate len 0 := by
  induction len with
  | zero => rfl
  | succ len ih => simp [digitsLE, ih, List.replicate_succ]

lemma digitsBE_zero (n len : Nat) : digitsBE n len 0 = List.replicate len 0 := by
  simp [digitsBE, digitsLE_zero]

lemma digitsLE_mem {n : Nat} (hn : 0 < n) (len k : Nat) :
    ∀ x ∈ digitsLE n len k, 0 ≤ x ∧ x < (n : Int) := by
  induction len generalizing k with
  | zero => simp [digitsLE]
  | succ len ih =>
    intro x hx
    rcases List.mem_cons.mp hx with h | h
    · subst h
      have := Nat.mod_lt k hn
      constructor
      · exact Int.ofNat_nonneg _
      · exact_mod_cast this
    · exact ih (k / n) x h

lemma valLE_digitsLE {n : Nat} (hn : 0 < n) :
    ∀ len k, k < n ^ len → valLE n (digitsLE n len k) = k := by
  intro len
  induction len generalizing n with
  | zero =>
    intro k hk
    have : k = 0 := by simpa using hk
    simp [this, digitsLE, valLE]
  | succ len ih =>
    intro k hk
    have hq : k / n < n ^ len := (Nat.div_lt_iff_lt_mul hn).mpr (by rw [← pow_succ]; exact hk)
    simp only [digitsLE, valLE, Int.toNat_natCast]
    rw [ih hn (k / n) hq]
    exact Nat.mod_add_div k n

lemma digitsLE_valLE {n : Nat} (hn : 0 < n) :
    ∀ a : List Int, (∀ x ∈ a, 0 ≤ x ∧ x < (n : Int)) →
      digitsLE n a.length (valLE n a) = a := by
  intro a
  induction a with
  | nil => intro _; rfl
  | cons x xs ih =>
    intro h
    obtain ⟨hx0, hxn⟩ := h x (List.mem_cons_self x xs)
    have hxe : ((x.toNat : Nat) : Int) = x := Int.toNat_of_nonneg hx0
    have hxlt : x.toNat < n := by omega
    simp only [List.length_cons, digitsLE, valLE]
    have hmod : (x.toNat + n * valLE n xs) % n = x.toNat := by
      rw [Nat.add_mul_mod_self_left, Nat.mod_eq_of_lt hxlt]
    have hdiv : (x.toNat + n * valLE n xs) / n = valLE n xs := by
      rw [Nat.add_mul_div_left _ _ hn, Nat.div_eq_of_lt hxlt, Nat.zero_add]
    rw [hmod, hdiv, hxe, ih (fun y hy => h y (List.mem_cons_of_mem x hy))]

lemma valLE_lt {n : Nat} (hn : 0 < n) :
    ∀ a : List Int, (∀ x ∈ a, 0 ≤ x ∧ x < (n : Int)) →
      valLE n a < n ^ a.length := by
  intro a
  induction a with
  | nil => intro _; simpa [valLE] using hn
  | cons x xs ih =>
    intro h
    obtain ⟨hx0, hxn⟩ := h x (List.mem_cons_self x xs)
    have hxlt : x.toNat < n := by omega
    have hxs : valLE n xs < n ^ xs.length := ih (fun y hy => h y (List.mem_cons_of_mem x hy))
    have hm : n * (valLE n xs + 1) ≤ n * n ^ xs.length := Nat.mul_le_mul_left n (by omega)
    rw [Nat.mul_add, Nat.mul_one] at hm
    simp only [valLE, List.length_cons, pow_succ]
    rw [mul_comm (n ^ xs.length) n]
    omega

lemma digitsLE_pow {n : Nat} (hn : 0 < n) :
    ∀ len, digitsLE n len (n ^ len) = List.replicate len 0 := by
  intro len
  induction len with
  | zero => simp [digitsLE, pow_zero]
  | succ len ih =>
    have hmod : n ^ (len + 1) % n = 0 := by
      rw [pow_succ]
      exact Nat.mul_mod_left _ _
    have hdiv : n ^ (len + 1) / n = n ^ len := by
      rw [pow_succ]
      exact Nat.mul_div_cancel _ hn
    simp [digitsLE, hmod, hdiv, ih, List.replicate_succ]

/-- One odometer step on the little-endian digit list of `k` yields the
digit list of `k + 1`, and reports whether `k + 1` is still in range. -/
lemma nextAux_digitsLE {n : Nat} (hn : 0 < n) :
    ∀ len k, k < n ^ len →
      nextAux n (digitsLE n len k) = (digitsLE n len (k + 1), decide (k + 1 < n ^ len)) := by
  intro len
  induction len with
  | zero =>
    intro k hk
    have h1 : n ^ 0 = 1 := pow_zero n
    have hk0 : k = 0 := by omega
    subst hk0
    simp [nextAux, digitsLE, pow_zero]
  | succ len ih =>
    intro k hk
    have hq : k / n < n ^ len := (Nat.div_lt_iff_lt_mul hn).mpr (by rw [← pow_succ]; exact hk)
    have hqr : n * (k / n) + k % n = k := Nat.div_add_mod k n
    have hr : k % n < n := Nat.mod_lt _ hn
    have htm : (((k % n : Nat) : Int) + 1).tmod (n : Int) = (((k % n + 1) % n : Nat) : Int) := by
      have h1 : ((k % n : Nat) : Int) + 1 = ((k % n + 1 : Nat) : Int) := by push_cast; ring
      rw [h1, ← Int.ofNat_tmod]
    rcases Nat.lt_or_ge (k % n + 1) n with hlt | hge
    · -- the incremented digit does not wrap: no carry
      have hmod : (k % n + 1) % n = k % n + 1 := Nat.mod_eq_of_lt hlt
      have e0 : k + 1 = (k % n + 1) + n * (k / n) := by omega
      have e1 : (k + 1) % n = k % n + 1 := by
        rw [e0, Nat.add_mul_mod_self_left, hmod]
      have e2 : (k + 1) / n = k / n := by
        rw [e0, Nat.add_mul_div_left _ _ hn, Nat.div_eq_of_lt hlt, Nat.zero_add]
      have hlt2 : k + 1 < n ^ (len + 1) := by
        by_contra hcon
        have heq : k + 1 = n ^ (len + 1) := by omega
        have hdvd : n ∣ k + 1 := heq ▸ dvd_pow_self n (Nat.succ_ne_zero len)
        have h0 : (k + 1) % n = 0 := Nat.eq_zero_of_dvd_of_lt hdvd |> fun _ => Nat.mod_eq_zero_of_dvd hdvd
        omega
      have hpos : (0 : Int) < (((k % n + 1) % n : Nat) : Int) := by
        rw [hmod]
        exact_mod_cast Nat.succ_pos _
      simp only [digitsLE, nextAux, htm]
      rw [if_pos hpos, e1, e2, hmod, decide_eq_true hlt2]
    · -- the incremented digit wraps to 0: carry into the next position
      have hrn : k % n + 1 = n := by omega
      have hmod0 : (k % n + 1) % n = 0 := by rw [hrn, Nat.mod_self]
      have e0 : k + 1 = n + n * (k / n) := by omega
      have e1 : (k + 1) % n = 0 := by
        rw [e0, Nat.add_mul_mod_self_left, Nat.mod_self]
      have e2 : (k + 1) / n = k / n + 1 := by
        rw [e0, Nat.add_mul_div_left _ _ hn, Nat.div_self hn]
        omega
      have hdec : decide (k / n + 1 < n ^ len) = decide (k + 1 < n ^ (len + 1)) := by
        apply decide_eq_decide.mpr
        rw [e0, pow_succ]
        have hform : n + n * (k / n) = (k / n + 1) * n := by ring
        rw [hform]
        exact (Nat.mul_lt_mul_right hn).symm
      simp only [digitsLE, nextAux, htm, hmod0, Nat.cast_zero]
      rw [if_neg (lt_irrefl 0), ih (k / n) hq, e1, e2, hdec]
      simp

/-- One odometer step of Go's `next` on the big-endian counter state. -/
lemma next_digitsBE {n : Nat} (hn : 0 < n) (len k : Nat) (hk : k < n ^ len) :
    next n (digitsBE n len k) = (digitsBE n len (k + 1), decide (k + 1 < n ^ len)) := by
  simp only [next, digitsBE, List.reverse_reverse]
  rw [nextAux_digitsLE hn len k hk]

/-! ### The `try` loop -/

lemma checkRow_iff (a : List Int) (S : List Guess) (n : Nat) :
    checkRow a S n = true ↔
      ∃ i, i < n ∧ a.getD i 0 = (S.getD i defaultGuess) (prune a i n) := by
  simp [checkRow, List.any_eq_true, List.mem_range, beq_iff_eq]

/-- With the counter at value `k` and at least `n ^ n - k` fuel, the loop of
`try` succeeds iff every remaining row checks out. -/
lemma tryGo_spec (S : List Guess) {n : Nat} (hn : 0 < n) :
    ∀ fuel k, k < n ^ n → n ^ n ≤ k + fuel →
      (tryGo S n fuel (digitsBE n n k) = true ↔
        ∀ j, k ≤ j → j < n ^ n → checkRow (digitsBE n n j) S n = true) := by
  intro fuel
  induction fuel with
  | zero => intro k hk hfuel; omega
  | succ fuel ih =>
    intro k hk hfuel
    simp only [tryGo]
    rw [next_digitsBE hn n k hk]
    dsimp only
    by_cases hc : checkRow (digitsBE n n k) S n = true
    · rw [if_pos hc]
      by_cases hlt : k + 1 < n ^ n
      · rw [decide_eq_true hlt, if_pos rfl, ih (k + 1) hlt (by omega)]
        constructor
        · intro h j hj1 hj2
          rcases Nat.eq_or_lt_of_le hj1 with rfl | hj
          · exact hc
          · exact h j hj hj2
        · intro h j hj1 hj2
          exact h j (by omega) hj2
      · rw [decide_eq_false hlt]
        simp only [Bool.false_eq_true, if_false]
        constructor
        · intro _ j hj1 hj2
          have hjk : j = k := by omega
          subst hjk
          exact hc
        · intro _
          trivial
    · rw [if_neg hc]
      constructor
      · intro hfalse
        exact absurd hfalse (by simp)
      · intro h
        exact absurd (h k le_rfl hk) hc

/-- `try S n` succeeds iff every one of the `n ^ n` enumerated rows checks
out. -/
lemma try_eq_forall (S : List Guess) {n : Nat} (hn : 0 < n) :
    «try» S n = true ↔ ∀ k, k < n ^ n → checkRow (digitsBE n n k) S n = true := by
  have h0 : 0 < n ^ n := Nat.pos_pow_of_pos n hn
  unfold «try»
  rw [← digitsBE_zero n n, tryGo_spec S hn (n ^ n) 0 h0 (by omega)]
  constructor
  · intro h k hk
    exact h k (Nat.zero_le k) hk
  · intro h j _ hj
    exact h j hj

lemma digitsBE_mem {n : Nat} (hn : 0 < n) (len k : Nat) :
    ∀ x ∈ digitsBE n len k, 0 ≤ x ∧ x < (n : Int) := by
  intro x hx
  exact digitsLE_mem hn len k x (List.mem_reverse.mp hx)

lemma digitsBE_valBE {n : Nat} (hn : 0 < n) (a : List Int)
    (hrange : ∀ x ∈ a, 0 ≤ x ∧ x < (n : Int)) :
    digitsBE n a.length (valBE n a) = a := by
  unfold digitsBE valBE
  rw [← List.length_reverse a,
    digitsLE_valLE hn a.reverse (fun x hx => hrange x (List.mem_reverse.mp hx)),
    List.reverse_reverse]

lemma valBE_lt {n : Nat} (hn : 0 < n) (a : List Int)
    (hrange : ∀ x ∈ a, 0 ≤ x ∧ x < (n : Int)) :
    valBE n a < n ^ a.length := by
  have h := valLE_lt hn a.reverse (fun x hx => hrange x (List.mem_reverse.mp hx))
  rw [List.length_reverse] at h
  exact h

lemma valBE_digitsBE {n : Nat} (hn : 0 < n) (len k : Nat) (hk : k < n ^ len) :
    valBE n (digitsBE n len k) = k := by
  unfold valBE digitsBE
  rw [List.reverse_reverse]
  exact valLE_digitsLE hn len k hk

/-- **C1.** For every `n ≥ 1` and every strategy `S` of length `n` (pure,
total guess functions), `try(S, n)` returns true iff for every assignment
`a ∈ [0,n)^n` there is a participant `i` with `S[i]` applied to the pruned
view of `a` at `i` equal to `a[i]`. -/
theorem try_iff_all_assignments (n : Nat) (S : List Guess)
    (hn : 1 ≤ n) (hS : S.length = n) :
    «try» S n = true ↔
      ∀ a : List Int, a.length = n → (∀ x ∈ a, 0 ≤ x ∧ x < (n : Int)) →
        ∃ i, i < n ∧ (S.getD i defaultGuess) (prune a i n) = a.getD i 0 := by
  rw [try_eq_forall S hn]
  constructor
  · intro h a ha hrange
    have hval : valBE n a < n ^ n := by
      have hv := valBE_lt hn a hrange
      rw [ha] at hv
      exact hv
    have hc := h (valBE n a) hval
    have hrepr : digitsBE n n (valBE n a) = a := by
      have hd := digitsBE_valBE hn a hrange
      rw [ha] at hd
      exact hd
    rw [hrepr] at hc
    obtain ⟨i, hi, he⟩ := (checkRow_iff a S n).mp hc
    exact ⟨i, hi, he.symm⟩
  · intro h k hk
    apply (checkRow_iff _ S n).mpr
    obtain ⟨i, hi, he⟩ := h (digitsBE n n k) (digitsBE_length n n k) (digitsBE_mem hn n k)
    exact ⟨i, hi, he.symm⟩

/-- Witness for C1 at `n = 1` with the always-0 strategy. -/
theorem try_iff_all_assignments_witness : «try» [fun _ => (0 : Int)] 1 = true := by
  have h := try_iff_all_assignments 1 [fun _ => (0 : Int)] (by decide) rfl
  apply h.mpr
  intro a ha hrange
  refine ⟨0, Nat.zero_lt_one, ?_⟩
  match a, ha with
  | [x], _ =>
    obtain ⟨h0, h1⟩ := hrange x (by simp)
    have hx : x = 0 := by omega
    simp [hx]

/-! ### Enumeration completeness -/

lemma enumTrace_eq {n : Nat} (hn : 0 < n) :
    ∀ fuel k, k < n ^ n → n ^ n ≤ k + fuel →
      enumTrace n fuel (digitsBE n n k) = (List.range' k (n ^ n - k)).map (digitsBE n n) := by
  intro fuel
  induction fuel with
  | zero => intro k hk hfuel; omega
  | succ fuel ih =>
    intro k hk hfuel
    simp only [enumTrace]
    rw [next_digitsBE hn n k hk]
    dsimp only
    by_cases hlt : k + 1 < n ^ n
    · rw [decide_eq_true hlt, if_pos rfl, ih (k + 1) hlt (by omega)]
      have hc : n ^ n - k = (n ^ n - (k + 1)) + 1 := by omega
      rw [hc, List.range'_succ]
      rfl
    · have heq : n ^ n - k = 1 := by omega
      rw [decide_eq_false hlt]
      simp only [Bool.false_eq_true, if_false]
      rw [heq, List.range'_one]
      rfl

lemma getD_map_range (f : Nat → List Int) {k N : Nat} (h : k < N) :
    ((List.range N).map f).getD k [] = f k := by
  rw [List.getD_eq_getElem?_getD, List.getElem?_map, List.getElem?_range h]
  rfl

/-- **C3.** For every `n ≥ 1`, on a run where no check fails the enumerator
visits exactly `n ^ n` assignments, all distinct, starting at the all-zero
assignment, the `k`-th being the `n`-digit big-endian base-`n`
representation of `k`, and the final odometer increment wraps back to
all-zero reporting that no further state exists. -/
theorem enumeration_complete (n : Nat) (hn : 1 ≤ n) :
    enumTrace n (n ^ n) (List.replicate n 0) = (List.range (n ^ n)).map (digitsBE n n) ∧
    (enumTrace n (n ^ n) (List.replicate n 0)).length = n ^ n ∧
    (enumTrace n (n ^ n) (List.replicate n 0)).Nodup ∧
    (∀ k, k < n ^ n →
      (enumTrace n (n ^ n) (List.replicate n 0)).getD k [] = digitsBE n n k ∧
      valBE n (digitsBE n n k) = k) ∧
    (enumTrace n (n ^ n) (List.replicate n 0)).getD 0 [] = List.replicate n 0 ∧
    next n (digitsBE n n (n ^ n - 1)) = (List.replicate n 0, false) := by
  have h0 : 0 < n ^ n := Nat.pos_pow_of_pos n hn
  have htrace : enumTrace n (n ^ n) (List.replicate n 0) =
      (List.range (n ^ n)).map (digitsBE n n) := by
    have h := enumTrace_eq hn (n ^ n) 0 h0 (by omega)
    rw [digitsBE_zero] at h
    rw [h, Nat.sub_zero, List.range_eq_range']
  refine ⟨htrace, ?_, ?_, ?_, ?_, ?_⟩
  · rw [htrace, List.length_map, List.length_range]
  · rw [htrace]
    apply List.Nodup.map_on ?_ (List.nodup_range _)
    intro x hx y hy hxy
    rw [List.mem_range] at hx hy
    have hvx := valBE_digitsBE hn n x hx
    have hvy := valBE_digitsBE hn n y hy
    rw [← hvx, ← hvy, hxy]
  · intro k hk
    refine ⟨?_, valBE_digitsBE hn n k hk⟩
    rw [htrace]
    exact getD_map_range _ hk
  · rw [htrace, getD_map_range _ h0, digitsBE_zero]
  · have hlast : n ^ n - 1 < n ^ n := by omega
    have h := next_digitsBE hn n (n ^ n - 1) hlast
    have hsucc : n ^ n - 1 + 1 = n ^ n := by omega
    rw [hsucc] at h
    rw [h, decide_eq_false (lt_irrefl (n ^ n))]
    unfold digitsBE
    rw [digitsLE_pow hn, List.reverse_replicate]

/-- Witness for C3 at `n = 1`. -/
theorem enumeration_complete_witness :
    enumTrace 1 (1 ^ 1) (List.replicate 1 0) = (List.range (1 ^ 1)).map (digitsBE 1 1) :=
  (enumeration_complete 1 (by decide)).1

/-! ### The generated strategy -/

lemma generateStrategy_length {n : Nat} (hn : 0 < n) :
    (generateStrategy n).length = n := by
  simp only [generateStrategy, List.length_cons, List.length_map, List.length_range']
  omega

lemma generateStrategy_getD_zero (n : Nat) :
    (generateStrategy n).getD 0 defaultGuess = fun v =>
      mod ((List.range' 1 (n - 1)).foldl (fun res i => res + v.getD i 0) 0) n := rfl

lemma generateStrategy_getD {n : Nat} (i : Nat) (h1 : 1 ≤ i) (h2 : i < n) :
    (generateStrategy n).getD i defaultGuess = fun v =>
      mod ((List.range' 1 (n - 1)).foldl
             (fun res j => if j = i then res else res - v.getD j 0)
             (v.getD 0 0) + (i : Int)) n := by
  obtain ⟨i', rfl⟩ : ∃ i', i = i' + 1 := ⟨i - 1, by omega⟩
  simp only [generateStrategy, List.getD_cons_succ]
  rw [List.getD_eq_getElem?_getD, List.getElem?_map,
    List.getElem?_range' 1 1 (show i' < n - 1 by omega)]
  have h : 1 + 1 * i' = i' + 1 := by omega
  rw [h]
  rfl

lemma foldl_add_eq_sum (f : Nat → Int) (l : List Nat) (a : Int) :
    l.foldl (fun res i => res + f i) a = a + (l.map f).sum := by
  induction l generalizing a with
  | nil => simp
  | cons x xs ih => simp [ih, add_assoc]

lemma foldl_sub_skip (i : Nat) (f : Nat → Int) (l : List Nat) (a : Int) :
    l.foldl (fun res j => if j = i then res else res - f j) a =
      a - (l.map (fun j => if j = i then 0 else f j)).sum := by
  induction l generalizing a with
  | nil => simp
  | cons x xs ih =>
    by_cases hx : x = i
    · simp [hx, ih]
    · simp [hx, ih, sub_sub]

lemma sum_map_skip_eq (f : Nat → Int) (i : Nat) :
    ∀ l : List Nat, l.Nodup → i ∈ l →
      (l.map (fun j => if j = i then 0 else f j)).sum = (l.map f).sum - f i := by
  intro l
  induction l with
  | nil =>
    intro _ h
    cases h
  | cons x xs ih =>
    intro hnd hmem
    rw [List.nodup_cons] at hnd
    by_cases hx : x = i
    · subst hx
      have hcongr : xs.map (fun j => if j = x then 0 else f j) = xs.map f :=
        List.map_congr_left (fun j hj => by
          have hne : j ≠ x := fun h => hnd.1 (h ▸ hj)
          simp [hne])
      simp [hcongr]
    · have hmem' : i ∈ xs := by
        rcases List.mem_cons.mp hmem with h | h
        · exact absurd h.symm hx
        · exact h
      simp only [List.map_cons, List.sum_cons, if_neg hx, ih hnd.2 hmem']
      ring

lemma sum_filter_eq_sum_map_if (f : Nat → Int) (i : Nat) (l : List Nat) :
    ((l.filter (fun j => j ≠ i)).map f).sum =
      (l.map (fun j => if j = i then 0 else f j)).sum := by
  induction l with
  | nil => rfl
  | cons x xs ih =>
    rw [List.filter_cons]
    by_cases hx : x = i
    · rw [if_neg (by simp [hx]), List.map_cons, List.sum_cons, if_pos hx, ih, zero_add]
    · rw [if_pos (by simp [hx]), List.map_cons, List.map_cons, List.sum_cons,
        List.sum_cons, if_neg hx, ih]

lemma prune_length (v : List Int) (i n : Nat) : (prune v i n).length = n := by
  simp [prune]

lemma prune_getD (v : List Int) (i n : Nat) (hi : i < n) (j : Nat) (hj : j < n) :
    (prune v i n).getD j 0 = if j = i then -1 else v.getD j 0 := by
  unfold prune
  rw [List.getD_eq_getElem?_getD, List.getElem?_set]
  by_cases hij : i = j
  · subst hij
    rw [if_pos rfl, if_pos (by simpa using hi)]
    simp
  · have hji : ¬j = i := fun h => hij h.symm
    rw [if_neg hij, List.getElem?_map, List.getElem?_range hj]
    simp [hji]

lemma getD_range_bound {n : Nat} (hn : 0 < n) (a : List Int)
    (hrange : ∀ x ∈ a, 0 ≤ x ∧ x < (n : Int)) (i : Nat) :
    0 ≤ a.getD i 0 ∧ a.getD i 0 < (n : Int) := by
  rcases Nat.lt_or_ge i a.length with h | h
  · rw [List.getD_eq_getElem?_getD, List.getElem?_eq_getElem h]
    exact hrange _ (List.getElem_mem h)
  · rw [List.getD_eq_getElem?_getD, List.getElem?_eq_none h]
    simp only [Option.getD_none]
    exact ⟨le_refl 0, by exact_mod_cast hn⟩

/-- Participant 0's generated guess, evaluated on the pruned view, is the
sum of the other participants' true colors mod `n`. -/
lemma guess0_eval {n : Nat} (hn : 0 < n) (a : List Int) :
    (generateStrategy n).getD 0 defaultGuess (prune a 0 n) = mod (prunedSum a n) n := by
  rw [generateStrategy_getD_zero]
  dsimp only
  rw [foldl_add_eq_sum, zero_add]
  unfold prunedSum
  congr 1
  apply congrArg
  apply List.map_congr_left
  intro j hj
  rw [List.mem_range'] at hj
  obtain ⟨idx, hidx, rfl⟩ := hj
  have hj1 : 1 + 1 * idx < n := by omega
  have hj0 : ¬(1 + 1 * idx = 0) := by omega
  rw [prune_getD a 0 n hn _ hj1, if_neg hj0]

/-- Participant `i`'s generated guess (for `1 ≤ i < n`), evaluated on the
pruned view, is `a[0] - (Σ_{j≥1} a[j] - a[i]) + i` mod `n`. -/
lemma guessI_eval {n : Nat} (a : List Int) (i : Nat) (h1 : 1 ≤ i) (h2 : i < n) :
    (generateStrategy n).getD i defaultGuess (prune a i n) =
      mod (a.getD 0 0 - (prunedSum a n - a.getD i 0) + (i : Int)) n := by
  rw [generateStrategy_getD i h1 h2]
  dsimp only
  rw [foldl_sub_skip]
  have h00 : (prune a i n).getD 0 0 = a.getD 0 0 := by
    rw [prune_getD a i n h2 0 (by omega), if_neg (by omega)]
  rw [h00]
  have hcongr : (List.range' 1 (n - 1)).map
        (fun j => if j = i then 0 else (prune a i n).getD j 0)
      = (List.range' 1 (n - 1)).map (fun j => if j = i then 0 else a.getD j 0) := by
    apply List.map_congr_left
    intro j hj
    have hjb : 1 ≤ j ∧ j < n := by
      rw [List.mem_range'] at hj
      obtain ⟨idx, hidx, rfl⟩ := hj
      omega
    by_cases hji : j = i
    · simp [hji]
    · rw [if_neg hji, if_neg hji, prune_getD a i n h2 _ (by omega), if_neg hji]
  rw [hcongr, sum_map_skip_eq (fun j => a.getD j 0) i _
    (List.nodup_range' 1 (n - 1))
    (List.mem_range'.mpr ⟨i - 1, by omega, by omega⟩)]
  rfl

/-- On a valid assignment, participant `i` of the generated strategy
guesses correctly iff `i` is the distinguished residue
`mod(a[1] + … + a[n-1] - a[0], n)`. -/
lemma generate_correct_iff {n : Nat} (hn : 0 < n) (a : List Int)
    (hrange : ∀ x ∈ a, 0 ≤ x ∧ x < (n : Int)) (i : Nat) (hi : i < n) :
    ((generateStrategy n).getD i defaultGuess (prune a i n) = a.getD i 0) ↔
      (i : Int) = mod (prunedSum a n - a.getD 0 0) n := by
  have hn' : (0 : Int) < (n : Int) := by exact_mod_cast hn
  have hai := getD_range_bound hn a hrange i
  have ha0 := getD_range_bound hn a hrange 0
  have hd : mod (prunedSum a n - a.getD 0 0) n = (prunedSum a n - a.getD 0 0) % n :=
    mod_eq_emod _ hn'
  rcases Nat.eq_zero_or_pos i with rfl | hipos
  · rw [guess0_eval hn a, mod_eq_emod _ hn', hd, Nat.cast_zero]
    have e : prunedSum a n % n = a.getD 0 0 ↔
        (prunedSum a n - a.getD 0 0) % n = 0 := by
      conv_rhs => rw [← Int.emod_eq_emod_iff_emod_sub_eq_zero]
      rw [Int.emod_eq_of_lt ha0.1 ha0.2]
    rw [e]
    exact eq_comm
  · rw [guessI_eval a i hipos hi, mod_eq_emod _ hn', hd]
    have e1 : (a.getD 0 0 - (prunedSum a n - a.getD i 0) + (i : Int)) % n = a.getD i 0 ↔
        ((a.getD 0 0 - (prunedSum a n - a.getD i 0) + (i : Int)) - a.getD i 0) % n = 0 := by
      conv_rhs => rw [← Int.emod_eq_emod_iff_emod_sub_eq_zero]
      rw [Int.emod_eq_of_lt hai.1 hai.2]
    rw [e1]
    have e2 : (a.getD 0 0 - (prunedSum a n - a.getD i 0) + (i : Int)) - a.getD i 0 =
        (i : Int) - (prunedSum a n - a.getD 0 0) := by ring
    rw [e2, Int.emod_eq_emod_iff_emod_sub_eq_zero.symm,
      Int.emod_eq_of_lt (Int.ofNat_nonneg i) (by exact_mod_cast hi)]

/-- Every valid row passes `checkRow` under the generated strategy. -/
lemma generate_checkRow {n : Nat} (hn : 0 < n) (a : List Int)
    (hrange : ∀ x ∈ a, 0 ≤ x ∧ x < (n : Int)) :
    checkRow a (generateStrategy n) n = true := by
  apply (checkRow_iff a (generateStrategy n) n).mpr
  have hn' : (0 : Int) < (n : Int) := by exact_mod_cast hn
  obtain ⟨hd0, hdn⟩ := mod_bounds (prunedSum a n - a.getD 0 0) hn'
  set d := mod (prunedSum a n - a.getD 0 0) n with hdef
  have hcast : (d.toNat : Int) = d := Int.toNat_of_nonneg hd0
  have hlt : d.toNat < n := by omega
  refine ⟨d.toNat, hlt, ?_⟩
  exact ((generate_correct_iff hn a hrange d.toNat hlt).mpr hcast).symm

/-- For every `n ≥ 1` the generated strategy passes exhaustive
verification. -/
lemma try_generate {n : Nat} (hn : 0 < n) : «try» (generateStrategy n) n = true := by
  rw [try_eq_forall _ hn]
  intro k hk
  exact generate_checkRow hn _ (digitsBE_mem hn n k)

/-- **C2.** For each `n ∈ {2, 3, 7}`, verifying the generated strategy
succeeds: `try(generateStrategy(n), n)` returns true. -/
theorem try_generate_2_3_7 :
    «try» (generateStrategy 2) 2 = true ∧
    «try» (generateStrategy 3) 3 = true ∧
    «try» (generateStrategy 7) 7 = true :=
  ⟨try_generate (by norm_num), try_generate (by norm_num), try_generate (by norm_num)⟩

/-- **C9.** For every `n ≥ 1` and every assignment `a ∈ [0,n)^n`, exactly
one participant of the generated strategy guesses correctly — the unique
index `mod((a[1] + … + a[n-1]) - a[0], n)` — and consequently
`try(generateStrategy(n), n)` is true for every `n ≥ 1`. -/
theorem generate_unique_winner (n : Nat) (a : List Int) (hn : 1 ≤ n)
    (ha : a.length = n) (hrange : ∀ x ∈ a, 0 ≤ x ∧ x < (n : Int)) :
    (∀ i, i < n →
      ((generateStrategy n).getD i defaultGuess (prune a i n) = a.getD i 0 ↔
        (i : Int) = mod (prunedSum a n - a.getD 0 0) n)) ∧
    (∃! i, i < n ∧
      (generateStrategy n).getD i defaultGuess (prune a i n) = a.getD i 0) ∧
    «try» (generateStrategy n) n = true := by
  refine ⟨fun i hi => generate_correct_iff hn a hrange i hi, ?_, try_generate hn⟩
  have hn' : (0 : Int) < (n : Int) := by exact_mod_cast hn
  obtain ⟨hd0, hdn⟩ := mod_bounds (prunedSum a n - a.getD 0 0) hn'
  set d := mod (prunedSum a n - a.getD 0 0) n with hdef
  have hcast : (d.toNat : Int) = d := Int.toNat_of_nonneg hd0
  have hlt : d.toNat < n := by omega
  refine ⟨d.toNat, ⟨hlt, (generate_correct_iff hn a hrange d.toNat hlt).mpr hcast⟩, ?_⟩
  rintro j ⟨hj, hcorrect⟩
  have hje : (j : Int) = d := (generate_correct_iff hn a hrange j hj).mp hcorrect
  omega

/-- Witness for C9 at `n = 2`, `a = [0, 1]` (participant 1 is the unique
winner there). -/
theorem generate_unique_winner_witness :
    ((generateStrategy 2).getD 1 defaultGuess (prune [0, 1] 1 2) = [(0 : Int), 1].getD 1 0) ∧
    «try» (generateStrategy 2) 2 = true := by
  have h := generate_unique_winner 2 [0, 1] (by norm_num) rfl (by decide)
  refine ⟨(h.1 1 (by norm_num)).mpr (by decide), h.2.2⟩

/-- **C4.** For every `n ≥ 1`, `generateStrategy(n)` returns exactly `n`
guess functions; guess 0 maps `v` to `mod(v[1] + … + v[n-1], n)`, guess `i`
(for `1 ≤ i < n`) maps `v` to
`mod(v[0] - Σ_{j ∈ 1..n-1, j ≠ i} v[j] + i, n)`, each closure capturing its
own index `i`; and guess `i` never reads position `i` (its value depends
only on the positions `j < n` with `j ≠ i`). -/
theorem generateStrategy_spec (n : Nat) (hn : 1 ≤ n) :
    (generateStrategy n).length = n ∧
    (∀ v : List Int, (generateStrategy n).getD 0 defaultGuess v =
      mod (((List.range' 1 (n - 1)).map (fun j => v.getD j 0)).sum) n) ∧
    (∀ i, 1 ≤ i → i < n → ∀ v : List Int,
      (generateStrategy n).getD i defaultGuess v =
        mod (v.getD 0 0 -
          (((List.range' 1 (n - 1)).filter (fun j => j ≠ i)).map
            (fun j => v.getD j 0)).sum + (i : Int)) n) ∧
    (∀ i, i < n → ∀ v w : List Int,
      (∀ j, j < n → j ≠ i → v.getD j 0 = w.getD j 0) →
      (generateStrategy n).getD i defaultGuess v =
        (generateStrategy n).getD i defaultGuess w) := by
  have hmem : ∀ j ∈ List.range' 1 (n - 1), 1 ≤ j ∧ j < n := by
    intro j hj
    rw [List.mem_range'] at hj
    obtain ⟨idx, hidx, rfl⟩ := hj
    omega
  refine ⟨generateStrategy_length hn, ?_, ?_, ?_⟩
  · intro v
    rw [generateStrategy_getD_zero]
    dsimp only
    rw [foldl_add_eq_sum, zero_add]
  · intro i hi1 hi2 v
    rw [generateStrategy_getD i hi1 hi2]
    dsimp only
    rw [foldl_sub_skip, sum_filter_eq_sum_map_if]
  · intro i hi v w hagree
    rcases Nat.eq_zero_or_pos i with rfl | hipos
    · rw [generateStrategy_getD_zero]
      dsimp only
      rw [foldl_add_eq_sum, foldl_add_eq_sum]
      have hc : (List.range' 1 (n - 1)).map (fun j => v.getD j 0) =
          (List.range' 1 (n - 1)).map (fun j => w.getD j 0) := by
        apply List.map_congr_left
        intro j hj
        obtain ⟨hj1, hj2⟩ := hmem j hj
        exact hagree j hj2 (by omega)
      rw [hc]
    · rw [generateStrategy_getD i hipos hi]
      dsimp only
      rw [foldl_sub_skip, foldl_sub_skip]
      have h0 : v.getD 0 0 = w.getD 0 0 := hagree 0 (by omega) (by omega)
      have hc : (List.range' 1 (n - 1)).map (fun j => if j = i then 0 else v.getD j 0) =
          (List.range' 1 (n - 1)).map (fun j => if j = i then 0 else w.getD j 0) := by
        apply List.map_congr_left
        intro j hj
        obtain ⟨hj1, hj2⟩ := hmem j hj
        by_cases hji : j = i
        · simp [hji]
        · rw [if_neg hji, if_neg hji, hagree j hj2 hji]
      rw [h0, hc]

/-- Witness for C4 at `n = 2`. -/
theorem generateStrategy_spec_witness : (generateStrategy 2).length = 2 :=
  (generateStrategy_spec 2 (by norm_num)).1

/-! ### The negative, degenerate and reporting scenarios -/

/-- **C6.** For the length-2 all-zero strategy, `try` under `n = 2` returns
false, and the reported failing assignment is `(1,1)`: the fourth state in
enumeration order (after `(0,0)`, `(0,1)`, `(1,0)`, which each contain a
zero) and the first containing no zero. -/
theorem constZero_fails_at_one_one :
    «try» (constZeroStrategy 2) 2 = false ∧
    tryFail (constZeroStrategy 2) 2 = some [1, 1] ∧
    (∀ k, k < 3 → (0 : Int) ∈ digitsBE 2 2 k) ∧
    (0 : Int) ∉ ([1, 1] : List Int) ∧
    digitsBE 2 2 3 = [1, 1] := by
  exact ⟨by decide, by decide, by decide, by decide, by decide⟩

/-- **C8.** For `n = 1`, `try` performs exactly one check, on the single
assignment `[0]`, whose pruned view is entirely the sentinel; it returns
true iff the guess maps `[-1]` to `0`. -/
theorem try_degenerate_n1 (f : Guess) :
    «try» [f] 1 = decide (f [(-1 : Int)] = 0) ∧
    enumTrace 1 (1 ^ 1) (List.replicate 1 0) = [[0]] ∧
    prune (List.replicate 1 0) 0 1 = [-1] := by
  refine ⟨?_, by decide, by decide⟩
  have hp : prune [(0 : Int)] 0 1 = [-1] := by decide
  have hnext : next 1 [(0 : Int)] = ([0], false) := by decide
  show tryGo [f] 1 (1 ^ 1) (List.replicate 1 0) = decide (f [(-1 : Int)] = 0)
  rw [show (1 : Nat) ^ 1 = 1 from rfl, show List.replicate 1 (0 : Int) = [0] from rfl]
  simp only [tryGo, hnext]
  have hcheck : checkRow [0] [f] 1 = ((0 : Int) == f [-1]) := by
    unfold checkRow
    rw [show List.range 1 = [0] from rfl]
    simp only [List.any_cons, List.any_nil, Bool.or_false, List.getD_cons_zero, hp]
  rw [hcheck]
  by_cases h : f [(-1 : Int)] = 0
  · simp [h]
  · have hne : ((0 : Int) == f [-1]) = false := by
      rw [beq_eq_false_iff_ne]
      exact fun he => h he.symm
    simp [h, hne]

/-- Witness for C8 with the constant-0 guess. -/
theorem try_degenerate_n1_witness :
    «try» [fun _ => (0 : Int)] 1 = decide ((fun _ => (0 : Int)) [(-1 : Int)] = 0) ∧
    enumTrace 1 (1 ^ 1) (List.replicate 1 0) = [[0]] ∧
    prune (List.replicate 1 0) 0 1 = [-1] :=
  try_degenerate_n1 (fun _ => (0 : Int))

/-- **C7 counterexample.** With `selfReadStrategy` (one guess returning
`v[0]`) and `n = 1`, `try` fails on and reports the assignment `[0]`, but
the reported guess is `S[0]` applied to the raw assignment (`0`), not the
value `S[0](prune(a,0,1)) = -1` that `checkRow` compared. -/
theorem printRow_guess_not_pruned :
    «try» selfReadStrategy 1 = false ∧
    tryFail selfReadStrategy 1 = some [0] ∧
    (printRowData [0] selfReadStrategy 1).2 = [0] ∧
    [(selfReadStrategy.getD 0 defaultGuess) (prune [0] 0 1)] = [-1] ∧
    (printRowData [0] selfReadStrategy 1).2 ≠
      [(selfReadStrategy.getD 0 defaultGuess) (prune [0] 0 1)] := by
  exact ⟨by decide, by decide, by decide, by decide, by decide⟩

/-- **C7 (amended).** When `try` fails on an assignment `a`, the report
holds `a`'s true colors followed by each participant's guess applied to
the raw assignment `a` itself; these coincide with the values `checkRow`
compared exactly when each guess function is insensitive to its own,
pruned, position. -/
theorem printRow_report (n : Nat) (S : List Guess) (a : List Int)
    (h : ∀ i, i < n →
      (S.getD i defaultGuess) (prune a i n) = (S.getD i defaultGuess) a) :
    (printRowData a S n).1 = (List.range n).map (fun i => a.getD i 0) ∧
    (printRowData a S n).2 =
      (List.range n).map (fun i => (S.getD i defaultGuess) (prune a i n)) := by
  refine ⟨rfl, ?_⟩
  show (List.range n).map (fun i => (S.getD i defaultGuess) a) = _
  apply List.map_congr_left
  intro i hi
  rw [List.mem_range] at hi
  exact (h i hi).symm

/-- Witness for the amended C7 with a constant (hence pruning-insensitive)
guess. -/
theorem printRow_report_witness :
    (printRowData [0] [fun _ => (5 : Int)] 1).1 = [0] ∧
    (printRowData [0] [fun _ => (5 : Int)] 1).2 = [5] := by
  have h := printRow_report 1 [fun _ => (5 : Int)] [0] (by
    intro i hi
    have hi0 : i = 0 := by omega
    subst hi0
    rfl)
  exact ⟨h.1.trans (by decide), h.2.trans (by decide)⟩

/-- **C10.** `prune(v, i, n)` returns a freshly allocated length-`n`
sequence equal to `v` at every position except `i`, where it holds `-1`.
As a pure function it leaves `v` unchanged, so the enumerator's current
assignment is intact for all `n` participants' checks and for the failure
report. -/
theorem prune_fresh (v : List Int) (i n : Nat) (hi : i < n) :
    (prune v i n).length = n ∧
    (prune v i n).getD i 0 = -1 ∧
    (∀ j, j < n → j ≠ i → (prune v i n).getD j 0 = v.getD j 0) := by
  refine ⟨prune_length v i n, ?_, ?_⟩
  · rw [prune_getD v i n hi i hi, if_pos rfl]
  · intro j hj hne
    rw [prune_getD v i n hi j hj, if_neg hne]

/-- Witness for C10 at `v = [3, 4]`, `i = 0`, `n = 2`. -/
theorem prune_fresh_witness :
    (prune [3, 4] 0 2).length = 2 ∧
    (prune [3, 4] 0 2).getD 0 0 = -1 ∧
    (∀ j, j < 2 → j ≠ 0 → (prune [3, 4] 0 2).getD j 0 = [(3 : Int), 4].getD j 0) :=
  prune_fresh [3, 4] 0 2 (by norm_num)

end Hats
